import Mathlib

/-!
Verification of a Connect-Four variant (10x10 board, three markers, minimax
AI with alpha-beta pruning).  The definitions below are a shallow embedding
of the game engine: the board is a function from (row, column) to markers,
the mutable search of the source is embedded as an explicit state-passing
function `minimax` that returns the final board alongside the result, and a
pure variant `minimaxPure` plus a non-pruned `minimaxFull` support the
refinement proofs.
-/

/-- Cell states: empty, the two human players, and the computer (AI). -/
inductive Marker where
  | EMPTY
  | P1
  | P2
  | AI
deriving DecidableEq, Fintype

/-- The board, addressed by (row, column) with row 0 at the top.  Only the
indices below 10 are ever read or written by the engine. -/
abbrev Board := Nat → Nat → Marker

def emptyBoard : Board := fun _ _ => Marker.EMPTY

/-- Write one cell of the board. -/
def setCell (b : Board) (r c : Nat) (m : Marker) : Board :=
  fun r' c' => if r' = r ∧ c' = c then m else b r' c'

/-- A window of four cells along a row. -/
def windowH (b : Board) (r c : Nat) : List Marker :=
  [b r c, b r (c+1), b r (c+2), b r (c+3)]

/-- A window of four cells down a column. -/
def windowV (b : Board) (r c : Nat) : List Marker :=
  [b r c, b (r+1) c, b (r+2) c, b (r+3) c]

/-- A window of four cells on a positive-slope diagonal (rows and columns
increasing together), as scanned by the source. -/
def windowD1 (b : Board) (r c : Nat) : List Marker :=
  [b r c, b (r+1) (c+1), b (r+2) (c+2), b (r+3) (c+3)]

/-- A window of four cells on a negative-slope diagonal: the source scans
rows 3..9 and reads `board[row-i][col+i]`; here `r` ranges over 0..6 and
stands for `row - 3`. -/
def windowD2 (b : Board) (r c : Nat) : List Marker :=
  [b (r+3) c, b (r+2) (c+1), b (r+1) (c+2), b r (c+3)]

def winAll (w : List Marker) (p : Marker) : Bool :=
  w.all (fun x => x == p)

/-- `check_for_win`: four same-marker cells contiguous horizontally,
vertically, or along either diagonal. -/
def check_for_win (b : Board) (player : Marker) : Bool :=
  ((List.range 10).any fun r => (List.range 7).any fun c => winAll (windowH b r c) player) ||
  ((List.range 7).any fun r => (List.range 10).any fun c => winAll (windowV b r c) player) ||
  ((List.range 7).any fun r => (List.range 7).any fun c => winAll (windowD1 b r c) player) ||
  ((List.range 7).any fun r => (List.range 7).any fun c => winAll (windowD2 b r c) player)

/-- `is_valid_move`: the column is in range and its top cell is empty. -/
def is_valid_move (b : Board) (col : Nat) : Bool :=
  decide (col < 10) && (b 0 col == Marker.EMPTY)

/-- `get_valid_moves`: the columns 0..9 whose move is valid, in order. -/
def get_valid_moves (b : Board) : List Nat :=
  (List.range 10).filter (fun c => is_valid_move b c)

/-- Scan rows `n-1, n-2, ..., 0` and return the first row whose cell in
column `c` is empty (the source iterates `range(BOARD_SIZE-1, -1, -1)`). -/
def scanRow (b : Board) (c : Nat) : Nat → Option Nat
  | 0 => none
  | r+1 => if b r c = Marker.EMPTY then some r else scanRow b c r

/-- The row filled by a drop in column `c`: the lowest empty cell. -/
def dropRow (b : Board) (c : Nat) : Option Nat := scanRow b c 10

/-- `make_move` for an in-range column: place the marker on the lowest
empty cell of the column and report success, or report `false` and leave
the board unchanged if the column is full. -/
def make_move (b : Board) (col : Nat) (player : Marker) : Board × Bool :=
  match dropRow b col with
  | some r => (setCell b r col player, true)
  | none => (b, false)

/-- Resolve a Python/numpy integer column index against a 10-wide axis:
indices 0..9 address directly, -10..-1 wrap around to 0..9, and anything
else raises `IndexError` (modelled as `Except.error`). -/
def npIndex (col : Int) : Except Unit Nat :=
  if 0 ≤ col ∧ col < 10 then Except.ok col.toNat
  else if -10 ≤ col ∧ col < 0 then Except.ok (col + 10).toNat
  else Except.error ()

/-- `make_move` as callable from Python with an arbitrary integer column:
the body indexes `board[row, col]` directly, so the column index follows
numpy semantics (`npIndex`) before any cell is read or written. -/
def make_move_int (b : Board) (col : Int) (player : Marker) : Except Unit (Board × Bool) :=
  match npIndex col with
  | Except.ok c => Except.ok (make_move b c player)
  | Except.error e => Except.error e

/-- `evaluate_window`: heuristic contribution of one window of four cells
for `player`, with the opponent fixed as
`P1 if player != P1 else P2` exactly as in the source. -/
def evaluate_window (window : List Marker) (player : Marker) : Int :=
  let opponent := if player ≠ Marker.P1 then Marker.P1 else Marker.P2
  let base : Int :=
    if window.count player = 4 then 100
    else if window.count player = 3 ∧ window.count Marker.EMPTY = 1 then 10
    else if window.count player = 2 ∧ window.count Marker.EMPTY = 2 then 5
    else 0
  if window.count opponent = 3 ∧ window.count Marker.EMPTY = 1 then base - 8 else base

def sumL (n : Nat) (f : Nat → Int) : Int := ((List.range n).map f).sum

/-- `score_position`: center-column bonus plus the window heuristic summed
over every horizontal, vertical and diagonal window of length 4. -/
def score_position (b : Board) (player : Marker) : Int :=
  let centerCount : Int := ((List.range 10).filter (fun r => b r 5 == player)).length
  centerCount * 6
  + sumL 10 (fun r => sumL 7 (fun c => evaluate_window (windowH b r c) player))
  + sumL 10 (fun c => sumL 7 (fun r => evaluate_window (windowV b r c) player))
  + sumL 7 (fun r => sumL 7 (fun c => evaluate_window (windowD1 b r c) player))
  + sumL 7 (fun r => sumL 7 (fun c => evaluate_window (windowD2 b r c) player))

/-- Number of empty cells on the board. -/
def countEmpty (b : Board) : Nat :=
  ((List.range 10).map
    (fun r => ((List.range 10).filter (fun c => b r c == Marker.EMPTY)).length)).sum

/-- `dynamic_depth`: search depth from the game phase. -/
def dynamic_depth (b : Board) : Nat :=
  if 60 < countEmpty b then 3
  else if 30 < countEmpty b then 4
  else 5

/-- Distance of a column from the center column 5, the sort key used for
move ordering. -/
def keyDist (c : Nat) : Nat := ((c : Int) - 5).natAbs

/-- Stable insertion for the center-first ordering: an element is placed
before the first element with a key that is not smaller, so elements with
equal keys keep their original relative order (Python's sort is stable). -/
def insertKey (x : Nat) : List Nat → List Nat
  | [] => [x]
  | y :: ys => if keyDist y < keyDist x then y :: insertKey x ys else x :: y :: ys

/-- `valid_moves.sort(key=lambda col: abs(col - center_col))`. -/
def sortMoves (ms : List Nat) : List Nat := ms.foldr insertKey []

/-- Scores live in the integers extended with the two infinities used for
the initial alpha/beta bounds. -/
abbrev EInt := WithBot (WithTop Int)

/-- Embed a plain integer score. -/
def iE (n : Int) : EInt := ((n : WithTop Int) : EInt)

/-- The terminal payoff of the minimax terminal branch: the AI win check is
performed first, then the human win checks, then the draw. -/
def termScore (b : Board) : Int :=
  if check_for_win b Marker.AI then 1000000
  else if check_for_win b Marker.P1 || check_for_win b Marker.P2 then -1000000
  else 0

/-- `is_terminal` of the search: some player has won or no valid move remains. -/
def isTerminal (b : Board) : Bool :=
  check_for_win b Marker.P1 || check_for_win b Marker.P2 || check_for_win b Marker.AI
    || (get_valid_moves b).isEmpty

/-- The speculative placement of the source, which inlines the drop loop:
it returns the row variable left by the loop (0 when no empty cell was
found, as the Python loop variable ends at 0) together with the board
after the write. -/
def placeRowS (b : Board) (c : Nat) (p : Marker) : Nat × Board :=
  match dropRow b c with
  | some r => (r, setCell b r c p)
  | none => (0, b)

/-- The board after a speculative placement (pure view). -/
def placeP (b : Board) (c : Nat) (p : Marker) : Board := (placeRowS b c p).2

/-- The human marker the minimizing step simulates: whichever of P1 and P2
currently scores higher. -/
def minOpponent (b : Board) : Marker :=
  if score_position b Marker.P1 > score_position b Marker.P2 then Marker.P1 else Marker.P2

/-- The maximizing loop of the source, with the board threaded explicitly:
place the AI marker, recurse, undo by writing `EMPTY` back at the row the
placement loop left behind, update the best column/score and alpha, and
stop as soon as alpha is at least beta. -/
def maxLoopS (rec : Board → EInt → EInt → Bool → (Option Nat × EInt) × Board) (β : EInt) :
    List Nat → Board → Nat → EInt → EInt → (Nat × EInt) × Board
  | [], b, col, value, _ => ((col, value), b)
  | c :: rest, b, col, value, α =>
    let rb := placeRowS b c Marker.AI
    let res := rec rb.2 α β false
    let s := res.1.2
    let b3 := setCell res.2 rb.1 c Marker.EMPTY
    let col' := if value < s then c else col
    let value' := if value < s then s else value
    let α' := max α value'
    if β ≤ α' then ((col', value'), b3)
    else maxLoopS rec β rest b3 col' value' α'

/-- The minimizing loop of the source, with the board threaded explicitly:
the simulated human is recomputed from the current board at each
iteration, exactly as the source does inside the loop. -/
def minLoopS (rec : Board → EInt → EInt → Bool → (Option Nat × EInt) × Board) (α : EInt) :
    List Nat → Board → Nat → EInt → EInt → (Nat × EInt) × Board
  | [], b, col, value, _ => ((col, value), b)
  | c :: rest, b, col, value, β =>
    let opp := minOpponent b
    let rb := placeRowS b c opp
    let res := rec rb.2 α β true
    let s := res.1.2
    let b3 := setCell res.2 rb.1 c Marker.EMPTY
    let col' := if s < value then c else col
    let value' := if s < value then s else value
    let β' := min β value'
    if β' ≤ α then ((col', value'), b3)
    else minLoopS rec α rest b3 col' value' β'

/-- The minimax search of the source with alpha-beta pruning, embedded as
a state-passing function: the result is the (column, score) pair returned
by the Python function, paired with the board as it stands when the call
returns. -/
def minimax : Nat → Board → EInt → EInt → Bool → (Option Nat × EInt) × Board
  | 0, b, _, _, _ =>
    ((none, if isTerminal b then iE (termScore b) else iE (score_position b Marker.AI)), b)
  | d+1, b, α, β, maximizing =>
    if isTerminal b then ((none, iE (termScore b)), b)
    else
      match sortMoves (get_valid_moves b) with
      | [] => ((none, iE 0), b)
      | c0 :: tl =>
        if maximizing then
          let r := maxLoopS (fun b' α' β' m' => minimax d b' α' β' m') β (c0 :: tl) b c0 ⊥ α
          ((some r.1.1, r.1.2), r.2)
        else
          let r := minLoopS (fun b' α' β' m' => minimax d b' α' β' m') α (c0 :: tl) b c0 ⊤ β
          ((some r.1.1, r.1.2), r.2)

/-- Pure counterpart of `maxLoopS`: the board is a value, so the undo step
disappears. -/
def maxLoopP (rec : Board → EInt → EInt → Bool → Option Nat × EInt) (b : Board) (β : EInt) :
    List Nat → Nat → EInt → EInt → Nat × EInt
  | [], col, value, _ => (col, value)
  | c :: rest, col, value, α =>
    let s := (rec (placeP b c Marker.AI) α β false).2
    let col' := if value < s then c else col
    let value' := if value < s then s else value
    let α' := max α value'
    if β ≤ α' then (col', value')
    else maxLoopP rec b β rest col' value' α'

/-- Pure counterpart of `minLoopS`. -/
def minLoopP (rec : Board → EInt → EInt → Bool → Option Nat × EInt) (b : Board) (α : EInt) :
    List Nat → Nat → EInt → EInt → Nat × EInt
  | [], col, value, _ => (col, value)
  | c :: rest, col, value, β =>
    let s := (rec (placeP b c (minOpponent b)) α β true).2
    let col' := if s < value then c else col
    let value' := if s < value then s else value
    let β' := min β value'
    if β' ≤ α then (col', value')
    else minLoopP rec b α rest col' value' β'

/-- Pure view of `minimax`: same recursion, immutable board. -/
def minimaxPure : Nat → Board → EInt → EInt → Bool → Option Nat × EInt
  | 0, b, _, _, _ =>
    (none, if isTerminal b then iE (termScore b) else iE (score_position b Marker.AI))
  | d+1, b, α, β, maximizing =>
    if isTerminal b then (none, iE (termScore b))
    else
      match sortMoves (get_valid_moves b) with
      | [] => (none, iE 0)
      | c0 :: tl =>
        if maximizing then
          let r := maxLoopP (fun b' α' β' m' => minimaxPure d b' α' β' m') b β (c0 :: tl) c0 ⊥ α
          (some r.1, r.2)
        else
          let r := minLoopP (fun b' α' β' m' => minimaxPure d b' α' β' m') b α (c0 :: tl) c0 ⊤ β
          (some r.1, r.2)

/-- Modelled from the spec: one maximizing step of the exhaustive
(non-pruned) full-width search, with the same center-first move ordering
and first-found tie-break but no alpha-beta cutoff. -/
def maxFoldF (rec : Board → Bool → Option Nat × EInt) (b : Board) :
    List Nat → Nat → EInt → Nat × EInt
  | [], col, value => (col, value)
  | c :: rest, col, value =>
    let s := (rec (placeP b c Marker.AI) false).2
    maxFoldF rec b rest (if value < s then c else col) (max value s)

/-- Modelled from the spec: one minimizing step of the exhaustive
(non-pruned) full-width search. -/
def minFoldF (rec : Board → Bool → Option Nat × EInt) (b : Board) :
    List Nat → Nat → EInt → Nat × EInt
  | [], col, value => (col, value)
  | c :: rest, col, value =>
    let s := (rec (placeP b c (minOpponent b)) true).2
    minFoldF rec b rest (if s < value then c else col) (min value s)

/-- Modelled from the spec: the exhaustive full-width minimax of the same
depth with pruning disabled, the comparison point of the alpha-beta
result-equivalence property. -/
def minimaxFull : Nat → Board → Bool → Option Nat × EInt
  | 0, b, _ =>
    (none, if isTerminal b then iE (termScore b) else iE (score_position b Marker.AI))
  | d+1, b, maximizing =>
    if isTerminal b then (none, iE (termScore b))
    else
      match sortMoves (get_valid_moves b) with
      | [] => (none, iE 0)
      | c0 :: tl =>
        if maximizing then
          let r := maxFoldF (fun b' m' => minimaxFull d b' m') b (c0 :: tl) c0 ⊥
          (some r.1, r.2)
        else
          let r := minFoldF (fun b' m' => minimaxFull d b' m') b (c0 :: tl) c0 ⊤
          (some r.1, r.2)

/-- The three participating markers, in the order the source lists them. -/
def allPlayers : List Marker := [Marker.P1, Marker.P2, Marker.AI]

/-- The candidate list the constrained-random turn policy draws from:
all three markers, unless the last two recorded actors are identical, in
which case that marker is excluded. -/
def randomCandidates (hist : List Marker) : List Marker :=
  if hist.length < 2 then allPlayers
  else
    match hist.getLast?, hist.dropLast.getLast? with
    | some x, some y =>
      if x = y then allPlayers.filter (fun p => decide (p ≠ x)) else allPlayers
    | _, _ => allPlayers

/-- Record the drawn actor: append it and drop the oldest entry once the
history exceeds two elements. -/
def recordPlayer (hist : List Marker) (p : Marker) : List Marker :=
  let h := hist ++ [p]
  if 2 < h.length then h.drop 1 else h

/-- The runs of `get_next_player_random`, with the random draw modelled as
an arbitrary choice from the offered candidate list: `RandomRun hist trace`
holds when `trace` is a possible sequence of returned markers and `hist`
the internal history it leaves behind. -/
inductive RandomRun : List Marker → List Marker → Prop where
  | start : RandomRun [] []
  | next (hist trace : List Marker) (p : Marker) (hr : RandomRun hist trace)
      (hp : p ∈ randomCandidates hist) : RandomRun (recordPlayer hist p) (trace ++ [p])

/-- Three identical consecutive entries never occur in the list. -/
def noTriple (t : List Marker) : Prop :=
  ∀ i x, ¬ (t.get? i = some x ∧ t.get? (i+1) = some x ∧ t.get? (i+2) = some x)

/-! ### Concrete boards used to witness the theorems -/

/-- AI has completed a horizontal four-in-a-row on the bottom row. -/
def bAIwin : Board := fun r c => if r = 9 ∧ c < 4 then Marker.AI else Marker.EMPTY

/-- P1 has completed a horizontal four-in-a-row on the bottom row. -/
def bP1win : Board := fun r c => if r = 9 ∧ c < 4 then Marker.P1 else Marker.EMPTY

/-- Both the AI and P1 hold a four-in-a-row on the bottom row. -/
def bBothWin : Board := fun r c =>
  if r = 9 ∧ c < 4 then Marker.AI
  else if r = 9 ∧ 5 ≤ c ∧ c < 9 then Marker.P1
  else Marker.EMPTY

/-- A completely full board on which no marker has four-in-a-row. -/
def bFullDraw : Board := fun r c =>
  if r % 2 = 0 then (if c % 4 < 2 then Marker.P1 else Marker.P2)
  else (if c % 4 < 2 then Marker.AI else Marker.P1)

/-- A board with exactly `k` of the 100 cells non-empty. -/
def bFillN (k : Nat) : Board := fun r c => if r * 10 + c < k then Marker.P1 else Marker.EMPTY

/-! ### Small facts about extended integers and the terminal branch -/

theorem iE_ne_bot (n : Int) : iE n ≠ ⊥ := WithBot.coe_ne_bot

theorem iE_ne_top (n : Int) : iE n ≠ ⊤ := by
  intro h
  exact WithTop.coe_ne_top (WithBot.coe_inj.mp h)

theorem terminal_of_win_AI {b : Board} (h : check_for_win b Marker.AI = true) :
    isTerminal b = true := by
  simp [isTerminal, h]

theorem terminal_of_win_P1 {b : Board} (h : check_for_win b Marker.P1 = true) :
    isTerminal b = true := by
  simp [isTerminal, h]

theorem terminal_of_win_P2 {b : Board} (h : check_for_win b Marker.P2 = true) :
    isTerminal b = true := by
  simp [isTerminal, h]

theorem terminal_of_no_moves {b : Board} (h : get_valid_moves b = []) :
    isTerminal b = true := by
  simp [isTerminal, h]

/-- On a terminal board the search returns immediately, at every depth and
for every alpha, beta and maximizing flag, leaving the board unchanged. -/
theorem minimax_terminal {b : Board} (h : isTerminal b = true)
    (d : Nat) (α β : EInt) (m : Bool) :
    minimax d b α β m = ((none, iE (termScore b)), b) := by
  cases d with
  | zero => simp [minimax, h]
  | succ d => simp [minimax, h]

theorem termScore_AI {b : Board} (h : check_for_win b Marker.AI = true) :
    termScore b = 1000000 := by
  simp [termScore, h]

theorem termScore_human {b : Board} (hAI : check_for_win b Marker.AI = false)
    (h : check_for_win b Marker.P1 = true ∨ check_for_win b Marker.P2 = true) :
    termScore b = -1000000 := by
  rcases h with h | h <;> simp [termScore, hAI, h]

theorem termScore_draw {b : Board} (hAI : check_for_win b Marker.AI = false)
    (h1 : check_for_win b Marker.P1 = false) (h2 : check_for_win b Marker.P2 = false) :
    termScore b = 0 := by
  simp [termScore, hAI, h1, h2]

/-! ### Claims about the terminal behavior of the search -/

/-- C1: for every board state and every depth (including depth 0), if the
AI has four-in-a-row then `minimax` returns the score 1000000; otherwise,
if P1 or P2 has four-in-a-row, it returns -1000000; otherwise, if no valid
move remains, it returns 0.  The win checks take priority over the draw
check and these terminal results hold regardless of remaining depth. -/
theorem claim1_minimax_terminal (d : Nat) (b : Board) (α β : EInt) (m : Bool) :
    (check_for_win b Marker.AI = true →
      (minimax d b α β m).1 = (none, iE 1000000)) ∧
    (check_for_win b Marker.AI = false →
      (check_for_win b Marker.P1 = true ∨ check_for_win b Marker.P2 = true) →
      (minimax d b α β m).1 = (none, iE (-1000000))) ∧
    (check_for_win b Marker.AI = false → check_for_win b Marker.P1 = false →
      check_for_win b Marker.P2 = false → get_valid_moves b = [] →
      (minimax d b α β m).1 = (none, iE 0)) := by
  refine ⟨fun hAI => ?_, fun hAI hHum => ?_, fun hAI h1 h2 hmv => ?_⟩
  · rw [minimax_terminal (terminal_of_win_AI hAI), termScore_AI hAI]
  · rcases hHum with h | h
    · rw [minimax_terminal (terminal_of_win_P1 h), termScore_human hAI (Or.inl h)]
    · rw [minimax_terminal (terminal_of_win_P2 h), termScore_human hAI (Or.inr h)]
  · rw [minimax_terminal (terminal_of_no_moves hmv), termScore_draw hAI h1 h2]

/-- Witness for C1 at concrete boards: an AI win scores 1000000, a human
win scores -1000000 and a full drawn board scores 0, at depth 3. -/
theorem claim1_witness :
    (minimax 3 bAIwin ⊥ ⊤ true).1 = (none, iE 1000000) ∧
    (minimax 3 bP1win ⊥ ⊤ true).1 = (none, iE (-1000000)) ∧
    (minimax 3 bFullDraw ⊥ ⊤ true).1 = (none, iE 0) :=
  ⟨(claim1_minimax_terminal 3 bAIwin ⊥ ⊤ true).1 (by decide),
   (claim1_minimax_terminal 3 bP1win ⊥ ⊤ true).2.1 (by decide) (Or.inl (by decide)),
   (claim1_minimax_terminal 3 bFullDraw ⊥ ⊤ true).2.2 (by decide) (by decide) (by decide)
     (by decide)⟩

/-- C10: when the AI and a human simultaneously hold four-in-a-row,
`minimax` returns the AI-win sentinel `(none, 1000000)`: the AI win check
is performed first and takes precedence. -/
theorem claim10_ai_priority (d : Nat) (b : Board) (α β : EInt) (m : Bool)
    (hAI : check_for_win b Marker.AI = true)
    (hHuman : check_for_win b Marker.P1 = true ∨ check_for_win b Marker.P2 = true) :
    (minimax d b α β m).1 = (none, iE 1000000) := by
  rw [minimax_terminal (terminal_of_win_AI hAI), termScore_AI hAI]

/-- Witness for C10: a board where both the AI and P1 have four-in-a-row
still yields the AI-win sentinel. -/
theorem claim10_witness : (minimax 4 bBothWin ⊥ ⊤ false).1 = (none, iE 1000000) :=
  claim10_ai_priority 4 bBothWin ⊥ ⊤ false (by decide) (Or.inl (by decide))

/-! ### The window evaluator (C6) -/

/-- C6: for every window of four cells and every marker, `evaluate_window`
returns +100 for four of the marker, +10 for exactly three of the marker
plus one empty, +5 for exactly two of the marker plus two empties, and -8
when exactly three cells hold the designated opponent plus one empty; the
opponent is P1 when the evaluated marker is not P1 and P2 otherwise, so
for the AI marker the opponent is always P1. -/
theorem claim6_evaluate_window (a b c d p : Marker) :
    (([a, b, c, d].count p = 4 → evaluate_window [a, b, c, d] p = 100) ∧
     ([a, b, c, d].count p = 3 ∧ [a, b, c, d].count Marker.EMPTY = 1 →
       evaluate_window [a, b, c, d] p = 10) ∧
     ([a, b, c, d].count p = 2 ∧ [a, b, c, d].count Marker.EMPTY = 2 →
       evaluate_window [a, b, c, d] p = 5) ∧
     ([a, b, c, d].count (if p ≠ Marker.P1 then Marker.P1 else Marker.P2) = 3 ∧
       [a, b, c, d].count Marker.EMPTY = 1 →
       evaluate_window [a, b, c, d] p = -8)) ∧
    (p = Marker.AI → (if p ≠ Marker.P1 then Marker.P1 else Marker.P2) = Marker.P1) := by
  revert a b c d p
  decide

/-- Witness for C6: concrete windows hitting each of the four scoring
branches for the AI marker, whose opponent is P1. -/
theorem claim6_witness :
    evaluate_window [Marker.AI, Marker.AI, Marker.AI, Marker.AI] Marker.AI = 100 ∧
    evaluate_window [Marker.AI, Marker.AI, Marker.AI, Marker.EMPTY] Marker.AI = 10 ∧
    evaluate_window [Marker.AI, Marker.AI, Marker.EMPTY, Marker.EMPTY] Marker.AI = 5 ∧
    evaluate_window [Marker.P1, Marker.P1, Marker.P1, Marker.EMPTY] Marker.AI = -8 :=
  ⟨(claim6_evaluate_window Marker.AI Marker.AI Marker.AI Marker.AI Marker.AI).1.1
      (by decide),
   (claim6_evaluate_window Marker.AI Marker.AI Marker.AI Marker.EMPTY Marker.AI).1.2.1
      (by decide),
   (claim6_evaluate_window Marker.AI Marker.AI Marker.EMPTY Marker.EMPTY Marker.AI).1.2.2.1
      (by decide),
   (claim6_evaluate_window Marker.P1 Marker.P1 Marker.P1 Marker.EMPTY Marker.AI).1.2.2.2
      (by decide)⟩

/-! ### The depth policy (C7) -/

/-- C7: `dynamic_depth` returns 3 when more than 60 cells are empty, 4
when more than 30 but at most 60 are empty, and 5 otherwise. -/
theorem claim7_dynamic_depth (b : Board) :
    (60 < countEmpty b → dynamic_depth b = 3) ∧
    (30 < countEmpty b → countEmpty b ≤ 60 → dynamic_depth b = 4) ∧
    (countEmpty b ≤ 30 → dynamic_depth b = 5) := by
  refine ⟨fun h => ?_, fun h1 h2 => ?_, fun h => ?_⟩ <;>
    simp only [dynamic_depth] <;> split <;> first | rfl | omega | (split <;> first | rfl | omega)

/-- Witness for C7 at the boundary counts of the claim: 61 empty cells give
depth 3, 60 give 4, 31 give 4 and 30 give 5. -/
theorem claim7_witness :
    dynamic_depth (bFillN 39) = 3 ∧ dynamic_depth (bFillN 40) = 4 ∧
    dynamic_depth (bFillN 69) = 4 ∧ dynamic_depth (bFillN 70) = 5 :=
  ⟨(claim7_dynamic_depth (bFillN 39)).1 (by decide),
   (claim7_dynamic_depth (bFillN 40)).2.1 (by decide) (by decide),
   (claim7_dynamic_depth (bFillN 69)).2.1 (by decide) (by decide),
   (claim7_dynamic_depth (bFillN 70)).2.2 (by decide)⟩

/-! ### Out-of-range columns in `make_move` (C5) -/

/-- C5 (failing input): calling `make_move` with the out-of-range column
-1 is not an error and does mutate the board: numpy wraps the index to
column 9, the marker lands on cell (9, 9) of the previously empty board,
and the call reports success -- indistinguishable from a normal applied
move, contradicting the claimed validate-before-mutate behavior. -/
theorem claim5_negative_column_mutates :
    (∃ b', make_move_int emptyBoard (-1) Marker.P1 = Except.ok (b', true) ∧
      b' 9 9 = Marker.P1) ∧
    emptyBoard 9 9 = Marker.EMPTY := by
  refine ⟨⟨setCell emptyBoard 9 9 Marker.P1, ?_, by decide⟩, rfl⟩
  rfl

/-! ### A column is always chosen on non-terminal boards (C4) -/

theorem insertKey_ne_nil (x : Nat) (l : List Nat) : insertKey x l ≠ [] := by
  cases l with
  | nil => simp [insertKey]
  | cons y ys => simp only [insertKey]; split <;> simp

theorem sortMoves_ne_nil {ms : List Nat} (h : ms ≠ []) : sortMoves ms ≠ [] := by
  cases ms with
  | nil => exact absurd rfl h
  | cons c cs => exact insertKey_ne_nil c (List.foldr insertKey [] cs)

/-- C4 (counterexample to the claim as stated): on a board where P1 has
already won, legal columns remain (and the depth policy picks depth 3),
yet the top-level call returns an absent column. -/
theorem claim4_counterexample :
    get_valid_moves bP1win ≠ [] ∧ dynamic_depth bP1win = 3 ∧
    (minimax 3 bP1win ⊥ ⊤ true).1.1 = none :=
  ⟨by decide, by decide, by decide⟩

/-- C4 (amended): whenever at least one legal column exists and no marker
has already won -- that is, the board is not terminal -- the top-level call
with alpha bottom, beta top, maximizing true and any depth of at least 3
returns a non-absent chosen column. -/
theorem claim4_nonempty_column (d : Nat) (b : Board)
    (hterm : isTerminal b = false) (hd : 3 ≤ d) :
    ∃ c, (minimax d b ⊥ ⊤ true).1.1 = some c := by
  obtain ⟨d', rfl⟩ : ∃ d', d = d' + 1 := by
    cases d with
    | zero => omega
    | succ n => exact ⟨n, rfl⟩
  have hne : get_valid_moves b ≠ [] := by
    simp only [isTerminal, Bool.or_eq_false_iff] at hterm
    intro hnil
    simp [hnil] at hterm
  obtain ⟨c0, tl, hctl⟩ := List.exists_cons_of_ne_nil (sortMoves_ne_nil hne)
  simp only [minimax, hterm, Bool.false_eq_true, if_false, hctl, if_true]
  exact ⟨_, rfl⟩

/-- Witness for the amended C4: from the empty board (non-terminal) at
depth 3, the chosen column is non-absent. -/
theorem claim4_witness : ∃ c, (minimax 3 emptyBoard ⊥ ⊤ true).1.1 = some c :=
  claim4_nonempty_column 3 emptyBoard (by decide) (by decide)

/-! ### The gravity invariant (C8) -/

/-- Cells above an empty cell in the same column are empty. -/
def gravityOK (b : Board) : Prop :=
  ∀ c, c < 10 → ∀ r, r < 10 → ∀ r2, r2 < r →
    b r c = Marker.EMPTY → b r2 c = Marker.EMPTY

theorem scanRow_some {b : Board} {c : Nat} :
    ∀ {n r : Nat}, scanRow b c n = some r →
      r < n ∧ b r c = Marker.EMPTY ∧ ∀ r', r < r' → r' < n → b r' c ≠ Marker.EMPTY := by
  intro n
  induction n with
  | zero => intro r h; simp [scanRow] at h
  | succ n ih =>
    intro r h
    by_cases hc : b n c = Marker.EMPTY
    · simp only [scanRow, hc, if_pos] at h
      obtain rfl : n = r := by injection h
      exact ⟨Nat.lt_succ_self _, hc, fun r' h1 h2 => by omega⟩
    · simp only [scanRow, hc, if_neg, if_false] at h
      obtain ⟨h1, h2, h3⟩ := ih h
      refine ⟨by omega, h2, fun r' hlt hlt' => ?_⟩
      rcases Nat.lt_or_ge r' n with hn | hn
      · exact h3 r' hlt hn
      · have : r' = n := by omega
        rwa [this]

theorem scanRow_none {b : Board} {c : Nat} :
    ∀ {n : Nat}, scanRow b c n = none → ∀ r, r < n → b r c ≠ Marker.EMPTY := by
  intro n
  induction n with
  | zero => intro _ r hr; omega
  | succ n ih =>
    intro h r hr
    by_cases hc : b n c = Marker.EMPTY
    · simp [scanRow, hc] at h
    · simp only [scanRow, hc, if_neg, if_false] at h
      rcases Nat.lt_or_ge r n with hn | hn
      · exact ih h r hn
      · have : r = n := by omega
        rwa [this]

/-- C8: the gravity invariant holds on the initial empty board and is
preserved by `make_move` on every in-range column, because the placement
fills the lowest empty cell of the column. -/
theorem claim8_gravity :
    gravityOK emptyBoard ∧
    ∀ (b : Board) (col : Nat) (p : Marker), col < 10 → gravityOK b →
      gravityOK (make_move b col p).1 := by
  constructor
  · intro c _ r _ r2 _ _
    rfl
  · intro b col p hcol hg
    cases hdrop : dropRow b col with
    | none => simpa [make_move, hdrop] using hg
    | some r =>
      obtain ⟨hr10, hrEmpty, hrMax⟩ :=
        scanRow_some (show scanRow b col 10 = some r from hdrop)
      simp only [make_move, hdrop]
      intro c hc r1 hr1 r2 hr2 hEmp1
      simp only [setCell] at hEmp1 ⊢
      by_cases hcell : r1 = r ∧ c = col
      · obtain ⟨rfl, rfl⟩ := hcell
        have hb2 : b r2 c = Marker.EMPTY := hg c hc r1 hr1 r2 hr2 hrEmpty
        have hne : r2 ≠ r1 := by omega
        simp [hne, hb2]
      · rw [if_neg hcell] at hEmp1
        by_cases hcc : c = col
        · subst hcc
          have hr1r : r1 ≠ r := fun hk => hcell ⟨hk, rfl⟩
          have hr1lt : r1 < r := by
            rcases Nat.lt_or_ge r1 r with h | h
            · exact h
            · have : r < r1 := by omega
              exact absurd hEmp1 (hrMax r1 this hr1)
          have hb2 : b r2 c = Marker.EMPTY := hg c hc r1 hr1 r2 hr2 hEmp1
          have hne : r2 ≠ r := by omega
          simp [hne, hb2]
        · have hb2 : b r2 c = Marker.EMPTY := hg c hc r1 hr1 r2 hr2 hEmp1
          have : ¬ (r2 = r ∧ c = col) := fun hk => hcc hk.2
          simp [this, hb2]

/-- Witness for C8: a concrete in-range move on the empty board keeps the
gravity invariant. -/
theorem claim8_witness : gravityOK (make_move emptyBoard 4 Marker.P1).1 :=
  claim8_gravity.2 emptyBoard 4 Marker.P1 (by decide)
    (fun c _ r _ r2 _ _ => rfl)

/-! ### The constrained-random turn policy (C9) -/

theorem mem_randomCandidates_double (x p : Marker)
    (hp : p ∈ randomCandidates [x, x]) : p ≠ x := by
  have hcand : randomCandidates [x, x] = allPlayers.filter (fun p => decide (p ≠ x)) := by
    simp [randomCandidates]
  rw [hcand] at hp
  have := (List.mem_filter.mp hp).2
  simpa using this

/-- The shape the history and trace of a run can take: the history is
exactly the at-most-two most recent entries of the trace. -/
def runShape (hist trace : List Marker) : Prop :=
  (hist = [] ∧ trace = []) ∨
  (∃ x, hist = [x] ∧ trace = [x]) ∨
  (∃ pre x y, hist = [x, y] ∧ trace = pre ++ [x, y])

theorem noTriple_append (t : List Marker) (p : Marker) (hnt : noTriple t)
    (hlast : ∀ x, (∃ pre, t = pre ++ [x, x]) → p ≠ x) : noTriple (t ++ [p]) := by
  intro i x ⟨h0, h1, h2⟩
  have hlen2 : i + 2 < t.length + 1 := by
    by_contra hge
    have : (t ++ [p]).get? (i+2) = none := by
      apply List.get?_eq_none.mpr
      simp only [List.length_append, List.length_singleton]
      omega
    rw [this] at h2
    exact Option.noConfusion h2
  rcases Nat.lt_or_ge (i + 2) t.length with hin | hend
  · have e0 : t.get? i = some x := by
      have hb : i < t.length := by omega
      rw [List.get?_append hb] at h0; exact h0
    have e1 : t.get? (i+1) = some x := by
      have hb : i + 1 < t.length := by omega
      rw [List.get?_append hb] at h1; exact h1
    have e2 : t.get? (i+2) = some x := by
      rw [List.get?_append hin] at h2; exact h2
    exact hnt i x ⟨e0, e1, e2⟩
  · have hi2 : i + 2 = t.length := by omega
    have hxp : x = p := by
      have hrt : (t ++ [p]).get? (i+2) = some p := by
        have hb : t.length ≤ i + 2 := by omega
        rw [List.get?_append_right hb]
        simp [hi2]
      rw [hrt] at h2
      exact (Option.some.injEq _ _).mp h2.symm
    have e0 : t.get? i = some x := by
      have hb : i < t.length := by omega
      rw [List.get?_append hb] at h0; exact h0
    have e1 : t.get? (i+1) = some x := by
      have hb : i + 1 < t.length := by omega
      rw [List.get?_append hb] at h1; exact h1
    have hdrop2 : t.drop i = [x, x] := by
      have hl : (t.drop i).length = 2 := by
        rw [List.length_drop]; omega
    
      obtain ⟨u, v, huv⟩ := List.length_eq_two.mp hl
      have hu : t.get? i = some u := by
        have := List.get?_drop t i 0
        rw [huv] at this
        simpa using this.symm
      have hv : t.get? (i+1) = some v := by
        have := List.get?_drop t i 1
        rw [huv] at this
        simpa using this.symm
      rw [e0] at hu
      rw [e1] at hv
      obtain rfl : x = u := by injection hu
      obtain rfl : x = v := by injection hv
      exact huv
    have hpre : ∃ pre, t = pre ++ [x, x] := by
      refine ⟨t.take i, ?_⟩
      conv_lhs => rw [← List.take_append_drop i t]
      rw [hdrop2]
    exact hlast x hpre hxp.symm

theorem suffix_two_eq {pre pre' : List Marker} {a b c d : Marker}
    (h : pre ++ [a, b] = pre' ++ [c, d]) : a = c ∧ b = d := by
  have hlen : pre.length = pre'.length := by
    have hl := congrArg List.length h
    simp only [List.length_append, List.length_cons, List.length_nil] at hl
    omega
  obtain ⟨-, h2⟩ := List.append_inj h hlen
  injection h2 with h3 h4
  injection h4 with h5 _
  exact ⟨h3, h5⟩

theorem randomRun_inv (hist trace : List Marker) (hrun : RandomRun hist trace) :
    runShape hist trace ∧ noTriple trace := by
  induction hrun with
  | start =>
    refine ⟨Or.inl ⟨rfl, rfl⟩, ?_⟩
    intro i x ⟨h0, _, _⟩
    simp at h0
  | next hist trace p hr hp ih =>
    obtain ⟨hshape, hnt⟩ := ih
    have hlast : ∀ x, (∃ pre, trace = pre ++ [x, x]) → p ≠ x := by
      intro x ⟨pre, hpre⟩
      rcases hshape with ⟨_, htr⟩ | ⟨z, _, htr⟩ | ⟨pre', u, v, hh, htr⟩
      · rw [htr] at hpre
        have := congrArg List.length hpre
        simp at this
      · rw [htr] at hpre
        have hl := congrArg List.length hpre
        simp only [List.length_append, List.length_cons, List.length_nil] at hl
        omega
      · rw [htr] at hpre
        obtain ⟨rfl, rfl⟩ := suffix_two_eq hpre.symm
        rw [hh] at hp
        exact mem_randomCandidates_double _ _ hp
    refine ⟨?_, noTriple_append trace p hnt hlast⟩
    rcases hshape with ⟨hh, htr⟩ | ⟨z, hh, htr⟩ | ⟨pre', u, v, hh, htr⟩
    · subst hh; subst htr
      exact Or.inr (Or.inl ⟨p, rfl, rfl⟩)
    · subst hh; subst htr
      exact Or.inr (Or.inr ⟨[], z, p, rfl, rfl⟩)
    · subst hh; subst htr
      refine Or.inr (Or.inr ⟨pre' ++ [u], v, p, rfl, ?_⟩)
      simp

/-- C9: along every run of the constrained-random turn policy (the random
draw modelled as an arbitrary choice from the offered candidate list), no
marker is ever returned three times consecutively; the history retains at
most the two most recent actors (it is a suffix of the trace of length at
most 2); and whenever the two recorded actors are identical, every offered
candidate differs from them. -/
theorem claim9_no_triple (hist trace : List Marker) (hrun : RandomRun hist trace) :
    noTriple trace ∧ hist.length ≤ 2 ∧ (∃ pre, trace = pre ++ hist) ∧
    (∀ x p, hist = [x, x] → p ∈ randomCandidates hist → p ≠ x) := by
  obtain ⟨hshape, hnt⟩ := randomRun_inv hist trace hrun
  refine ⟨hnt, ?_, ?_, ?_⟩
  · rcases hshape with ⟨hh, _⟩ | ⟨z, hh, _⟩ | ⟨pre', u, v, hh, _⟩ <;> simp [hh]
  · rcases hshape with ⟨hh, htr⟩ | ⟨z, hh, htr⟩ | ⟨pre', u, v, hh, htr⟩
    · exact ⟨[], by simp [hh, htr]⟩
    · exact ⟨[], by simp [hh, htr]⟩
    · exact ⟨pre', by simp [hh, htr]⟩
  · intro x p hh hp
    rw [hh] at hp
    exact mem_randomCandidates_double x p hp

/-- Witness for C9: a concrete three-step run (P1, P1, then a forced
non-P1 draw) has no triple repetition. -/
theorem claim9_witness : noTriple [Marker.P1, Marker.P1, Marker.P2] :=
  (claim9_no_triple [Marker.P1, Marker.P2] [Marker.P1, Marker.P1, Marker.P2]
    (RandomRun.next [Marker.P1, Marker.P1] [Marker.P1, Marker.P1] Marker.P2
      (RandomRun.next [Marker.P1] [Marker.P1] Marker.P1
        (RandomRun.next [] [] Marker.P1 RandomRun.start (by decide))
        (by decide))
      (by decide))).1

/-! ### Every speculative placement is undone (C3) -/

theorem dropRow_some {b : Board} {c r : Nat} (h : dropRow b c = some r) :
    r < 10 ∧ b r c = Marker.EMPTY ∧ ∀ r', r < r' → r' < 10 → b r' c ≠ Marker.EMPTY :=
  scanRow_some h

theorem dropRow_isSome {b : Board} {c : Nat} (h : b 0 c = Marker.EMPTY) :
    ∃ r, dropRow b c = some r := by
  cases hd : dropRow b c with
  | none => exact absurd h (scanRow_none hd 0 (by omega))
  | some r => exact ⟨r, rfl⟩

theorem setCell_setCell_cancel {b : Board} {r c : Nat} {p : Marker}
    (h : b r c = Marker.EMPTY) :
    setCell (setCell b r c p) r c Marker.EMPTY = b := by
  funext r' c'
  simp only [setCell]
  by_cases hrc : r' = r ∧ c' = c
  · obtain ⟨rfl, rfl⟩ := hrc
    simp [h]
  · simp [hrc]

theorem mem_insertKey {a x : Nat} : ∀ {l : List Nat}, a ∈ insertKey x l → a = x ∨ a ∈ l := by
  intro l
  induction l with
  | nil =>
    intro h
    simp only [insertKey] at h
    exact Or.inl (List.mem_singleton.mp h)
  | cons y ys ih =>
    intro h
    simp only [insertKey] at h
    split at h
    · rcases List.mem_cons.mp h with h | h
      · exact Or.inr (List.mem_cons.mpr (Or.inl h))
      · rcases ih h with h | h
        · exact Or.inl h
        · exact Or.inr (List.mem_cons.mpr (Or.inr h))
    · rcases List.mem_cons.mp h with h | h
      · exact Or.inl h
      · exact Or.inr h

theorem mem_sortMoves {a : Nat} : ∀ {ms : List Nat}, a ∈ sortMoves ms → a ∈ ms := by
  intro ms
  induction ms with
  | nil => intro h; exact absurd h (by simp [sortMoves])
  | cons c cs ih =>
    intro h
    have h' : a ∈ insertKey c (sortMoves cs) := h
    rcases mem_insertKey h' with h | h
    · simp [h]
    · exact List.mem_cons.mpr (Or.inr (ih h))

theorem mem_valid_moves {b : Board} {c : Nat} (h : c ∈ get_valid_moves b) :
    b 0 c = Marker.EMPTY := by
  simp only [get_valid_moves, List.mem_filter] at h
  have h2 := h.2
  simp only [is_valid_move, Bool.and_eq_true, decide_eq_true_eq, beq_iff_eq] at h2
  exact h2.2

/-- The maximizing loop restores the board and computes the pure loop. -/
theorem maxLoopS_spec (rec : Board → EInt → EInt → Bool → (Option Nat × EInt) × Board)
    (recP : Board → EInt → EInt → Bool → Option Nat × EInt)
    (hrec : ∀ b' α' β' m', rec b' α' β' m' = (recP b' α' β' m', b'))
    (β : EInt) :
    ∀ (ms : List Nat) (b : Board) (col : Nat) (value α : EInt),
      (∀ c ∈ ms, b 0 c = Marker.EMPTY) →
      maxLoopS rec β ms b col value α = (maxLoopP recP b β ms col value α, b) := by
  intro ms
  induction ms with
  | nil => intro b col value α _; rfl
  | cons c rest ih =>
    intro b col value α hval
    have hc : b 0 c = Marker.EMPTY := hval c (List.mem_cons_self c rest)
    obtain ⟨r, hr⟩ := dropRow_isSome hc
    have hrow : placeRowS b c Marker.AI = (r, setCell b r c Marker.AI) := by
      simp [placeRowS, hr]
    have hplace : placeP b c Marker.AI = setCell b r c Marker.AI := by
      simp [placeP, hrow]
    have hrestore : setCell (setCell b r c Marker.AI) r c Marker.EMPTY = b :=
      setCell_setCell_cancel (dropRow_some hr).2.1
    simp only [maxLoopS, maxLoopP, hrow, hrec, hplace, hrestore]
    split <;> split <;>
      first
        | rfl
        | exact ih b _ _ _ (fun c' hc' => hval c' (List.mem_cons_of_mem c hc'))

/-- The minimizing loop restores the board and computes the pure loop. -/
theorem minLoopS_spec (rec : Board → EInt → EInt → Bool → (Option Nat × EInt) × Board)
    (recP : Board → EInt → EInt → Bool → Option Nat × EInt)
    (hrec : ∀ b' α' β' m', rec b' α' β' m' = (recP b' α' β' m', b'))
    (α : EInt) :
    ∀ (ms : List Nat) (b : Board) (col : Nat) (value β : EInt),
      (∀ c ∈ ms, b 0 c = Marker.EMPTY) →
      minLoopS rec α ms b col value β = (minLoopP recP b α ms col value β, b) := by
  intro ms
  induction ms with
  | nil => intro b col value β _; rfl
  | cons c rest ih =>
    intro b col value β hval
    have hc : b 0 c = Marker.EMPTY := hval c (List.mem_cons_self c rest)
    obtain ⟨r, hr⟩ := dropRow_isSome hc
    have hrow : placeRowS b c (minOpponent b) = (r, setCell b r c (minOpponent b)) := by
      simp [placeRowS, hr]
    have hplace : placeP b c (minOpponent b) = setCell b r c (minOpponent b) := by
      simp [placeP, hrow]
    have hrestore :
        setCell (setCell b r c (minOpponent b)) r c Marker.EMPTY = b :=
      setCell_setCell_cancel (dropRow_some hr).2.1
    simp only [minLoopS, minLoopP, hrow, hrec, hplace, hrestore]
    split <;> split <;>
      first
        | rfl
        | exact ih b _ _ _ (fun c' hc' => hval c' (List.mem_cons_of_mem c hc'))

/-- `minimax` computes its pure view and always hands the board back
unchanged. -/
theorem minimax_spec : ∀ (d : Nat) (b : Board) (α β : EInt) (m : Bool),
    minimax d b α β m = (minimaxPure d b α β m, b) := by
  intro d
  induction d with
  | zero => intro b α β m; rfl
  | succ d ih =>
    intro b α β m
    by_cases hterm : isTerminal b = true
    · simp [minimax, minimaxPure, hterm]
    · have hterm' : isTerminal b = false := by
        cases h : isTerminal b
        · rfl
        · exact absurd h hterm
      cases hms : sortMoves (get_valid_moves b) with
      | nil => simp [minimax, minimaxPure, hterm', hms]
      | cons c0 tl =>
        have hval : ∀ c ∈ c0 :: tl, b 0 c = Marker.EMPTY := by
          intro c hcmem
          rw [← hms] at hcmem
          exact mem_valid_moves (mem_sortMoves hcmem)
        cases m with
        | true =>
          simp only [minimax, minimaxPure, hterm', Bool.false_eq_true, if_false, hms, if_true]
          rw [maxLoopS_spec _ _ ih β (c0 :: tl) b c0 ⊥ α hval]
        | false =>
          simp only [minimax, minimaxPure, hterm', Bool.false_eq_true, if_false, hms]
          rw [minLoopS_spec _ _ ih α (c0 :: tl) b c0 ⊤ β hval]

/-- C3: for every board, depth, alpha, beta and maximizing flag, the board
after a `minimax` call is bit-for-bit identical to the board before it:
every speculative placement is undone by restoring the cell to empty. -/
theorem claim3_board_restored (d : Nat) (b : Board) (α β : EInt) (m : Bool) :
    (minimax d b α β m).2 = b := by
  rw [minimax_spec]

/-! ### Alpha-beta equals the full-width search (C2): groundwork -/

theorem le_foldl_max (F : Nat → EInt) :
    ∀ (ms : List Nat) (v : EInt), v ≤ ms.foldl (fun a c => max a (F c)) v := by
  intro ms
  induction ms with
  | nil => intro v; exact le_refl v
  | cons c rest ih =>
    intro v
    exact le_trans (le_max_left v (F c)) (ih (max v (F c)))

theorem foldl_min_le (F : Nat → EInt) :
    ∀ (ms : List Nat) (v : EInt), ms.foldl (fun a c => min a (F c)) v ≤ v := by
  intro ms
  induction ms with
  | nil => intro v; exact le_refl v
  | cons c rest ih =>
    intro v
    exact le_trans (ih (min v (F c))) (min_le_left v (F c))

/-- The score of the full maximizing fold is a plain `foldl max`. -/
theorem maxFoldF_snd (recF : Board → Bool → Option Nat × EInt) (b : Board) :
    ∀ (ms : List Nat) (col : Nat) (value : EInt),
      (maxFoldF recF b ms col value).2 =
        ms.foldl (fun v c => max v ((recF (placeP b c Marker.AI) false).2)) value := by
  intro ms
  induction ms with
  | nil => intro col value; rfl
  | cons c rest ih => intro col value; exact ih _ _

/-- The score of the full minimizing fold is a plain `foldl min`. -/
theorem minFoldF_snd (recF : Board → Bool → Option Nat × EInt) (b : Board) :
    ∀ (ms : List Nat) (col : Nat) (value : EInt),
      (minFoldF recF b ms col value).2 =
        ms.foldl (fun v c => min v ((recF (placeP b c (minOpponent b)) true).2)) value := by
  intro ms
  induction ms with
  | nil => intro col value; rfl
  | cons c rest ih => intro col value; exact ih _ _

/-- The maximizing loop never produces an infinite score once the running
value is finite or there is at least one move. -/
theorem maxLoopP_fin (recP : Board → EInt → EInt → Bool → Option Nat × EInt)
    (b : Board) (β : EInt)
    (hchild : ∀ b' α' β' m', (recP b' α' β' m').2 ≠ ⊥ ∧ (recP b' α' β' m').2 ≠ ⊤) :
    ∀ (ms : List Nat) (col : Nat) (value α : EInt),
      ((value ≠ ⊥ ∧ value ≠ ⊤) ∨ (value = ⊥ ∧ ms ≠ [])) →
      (maxLoopP recP b β ms col value α).2 ≠ ⊥ ∧
        (maxLoopP recP b β ms col value α).2 ≠ ⊤ := by
  intro ms
  induction ms with
  | nil =>
    intro col value α h
    rcases h with ⟨h1, h2⟩ | ⟨_, hne⟩
    · exact ⟨h1, h2⟩
    · exact absurd rfl hne
  | cons c rest ih =>
    intro col value α h
    have hs := hchild (placeP b c Marker.AI) α β false
    simp only [maxLoopP]
    by_cases hup : value < (recP (placeP b c Marker.AI) α β false).2
    · simp only [if_pos hup]
      by_cases hpr : β ≤ max α (recP (placeP b c Marker.AI) α β false).2
      · simp only [if_pos hpr]
        exact ⟨hs.1, hs.2⟩
      · simp only [if_neg hpr]
        exact ih c _ _ (Or.inl ⟨hs.1, hs.2⟩)
    · simp only [if_neg hup]
      have hvfin : value ≠ ⊥ ∧ value ≠ ⊤ := by
        rcases h with h | ⟨rfl, _⟩
        · exact h
        · exact absurd (bot_lt_iff_ne_bot.mpr hs.1) hup
      by_cases hpr : β ≤ max α value
      · simp only [if_pos hpr]
        exact hvfin
      · simp only [if_neg hpr]
        exact ih col _ _ (Or.inl hvfin)

/-- The minimizing loop never produces an infinite score once the running
value is finite or there is at least one move. -/
theorem minLoopP_fin (recP : Board → EInt → EInt → Bool → Option Nat × EInt)
    (b : Board) (α : EInt)
    (hchild : ∀ b' α' β' m', (recP b' α' β' m').2 ≠ ⊥ ∧ (recP b' α' β' m').2 ≠ ⊤) :
    ∀ (ms : List Nat) (col : Nat) (value β : EInt),
      ((value ≠ ⊥ ∧ value ≠ ⊤) ∨ (value = ⊤ ∧ ms ≠ [])) →
      (minLoopP recP b α ms col value β).2 ≠ ⊥ ∧
        (minLoopP recP b α ms col value β).2 ≠ ⊤ := by
  intro ms
  induction ms with
  | nil =>
    intro col value β h
    rcases h with ⟨h1, h2⟩ | ⟨_, hne⟩
    · exact ⟨h1, h2⟩
    · exact absurd rfl hne
  | cons c rest ih =>
    intro col value β h
    have hs := hchild (placeP b c (minOpponent b)) α β true
    simp only [minLoopP]
    by_cases hup : (recP (placeP b c (minOpponent b)) α β true).2 < value
    · simp only [if_pos hup]
      by_cases hpr : min β (recP (placeP b c (minOpponent b)) α β true).2 ≤ α
      · simp only [if_pos hpr]
        exact ⟨hs.1, hs.2⟩
      · simp only [if_neg hpr]
        exact ih c _ _ (Or.inl ⟨hs.1, hs.2⟩)
    · simp only [if_neg hup]
      have hvfin : value ≠ ⊥ ∧ value ≠ ⊤ := by
        rcases h with h | ⟨rfl, _⟩
        · exact h
        · exact absurd (lt_top_iff_ne_top.mpr hs.2) hup
      by_cases hpr : min β value ≤ α
      · simp only [if_pos hpr]
        exact hvfin
      · simp only [if_neg hpr]
        exact ih col _ _ (Or.inl hvfin)

/-- The search score is always a plain integer, never an infinity. -/
theorem minimaxPure_fin : ∀ (d : Nat) (b : Board) (α β : EInt) (m : Bool),
    (minimaxPure d b α β m).2 ≠ ⊥ ∧ (minimaxPure d b α β m).2 ≠ ⊤ := by
  intro d
  induction d with
  | zero =>
    intro b α β m
    simp only [minimaxPure]
    constructor
    · split <;> exact iE_ne_bot _
    · split <;> exact iE_ne_top _
  | succ d ih =>
    intro b α β m
    by_cases hterm : isTerminal b = true
    · simp only [minimaxPure, hterm, if_true]
      exact ⟨iE_ne_bot _, iE_ne_top _⟩
    · have hterm' : isTerminal b = false := by
        cases h : isTerminal b
        · rfl
        · exact absurd h hterm
      cases hms : sortMoves (get_valid_moves b) with
      | nil =>
        simp only [minimaxPure, hterm', Bool.false_eq_true, if_false, hms]
        exact ⟨iE_ne_bot _, iE_ne_top _⟩
      | cons c0 tl =>
        cases m with
        | true =>
          simp only [minimaxPure, hterm', Bool.false_eq_true, if_false, hms, if_true]
          exact maxLoopP_fin _ b β (fun b' α' β' m' => ih b' α' β' m') (c0 :: tl) c0 ⊥ α
            (Or.inr ⟨rfl, List.cons_ne_nil c0 tl⟩)
        | false =>
          simp only [minimaxPure, hterm', Bool.false_eq_true, if_false, hms]
          exact minLoopP_fin _ b α (fun b' α' β' m' => ih b' α' β' m') (c0 :: tl) c0 ⊤ β
            (Or.inr ⟨rfl, List.cons_ne_nil c0 tl⟩)

/-- Knuth-Moore style bounds for the pruned maximizing loop against the
full fold: assuming the child scores satisfy the fail-soft bounds on every
subwindow, the loop value is exact inside the window (alpha0, beta), an
upper bound on the full value when failing low, and a lower bound when
failing high. -/
theorem maxLoop_bounds (recP : Board → EInt → EInt → Bool → Option Nat × EInt)
    (b : Board) (α0 β : EInt) (F : Nat → EInt) (hαβ : α0 < β)
    (hchild : ∀ (c : Nat) (α' : EInt), α' < β →
      ((recP (placeP b c Marker.AI) α' β false).2 ≤ α' →
        F c ≤ (recP (placeP b c Marker.AI) α' β false).2) ∧
      (α' < (recP (placeP b c Marker.AI) α' β false).2 →
        (recP (placeP b c Marker.AI) α' β false).2 < β →
        (recP (placeP b c Marker.AI) α' β false).2 = F c) ∧
      (β ≤ (recP (placeP b c Marker.AI) α' β false).2 →
        (recP (placeP b c Marker.AI) α' β false).2 ≤ F c)) :
    ∀ (ms : List Nat) (col : Nat) (valueP valueF α : EInt),
      α = max α0 valueP →
      valueF ≤ valueP → valueP ≤ max α0 valueF → max α0 valueP < β →
      ((maxLoopP recP b β ms col valueP α).2 ≤ α0 →
        ms.foldl (fun v c => max v (F c)) valueF ≤ (maxLoopP recP b β ms col valueP α).2) ∧
      (α0 < (maxLoopP recP b β ms col valueP α).2 →
        (maxLoopP recP b β ms col valueP α).2 < β →
        (maxLoopP recP b β ms col valueP α).2 = ms.foldl (fun v c => max v (F c)) valueF) ∧
      (β ≤ (maxLoopP recP b β ms col valueP α).2 →
        (maxLoopP recP b β ms col valueP α).2 ≤ ms.foldl (fun v c => max v (F c)) valueF) := by
  intro ms
  induction ms with
  | nil =>
    intro col valueP valueF α hα h1 h2 h3
    subst hα
    simp only [maxLoopP, List.foldl_nil]
    refine ⟨fun _ => h1, fun hgt _ => ?_, fun hge => ?_⟩
    · rcases le_max_iff.mp h2 with h | h
      · exact absurd hgt (not_lt.mpr h)
      · exact le_antisymm h h1
    · rcases le_max_iff.mp h2 with h | h
      · exact absurd (lt_of_lt_of_le hαβ hge) (not_lt.mpr h)
      · exact h
  | cons c rest ih =>
    intro col valueP valueF α hα h1 h2 h3
    subst hα
    simp only [maxLoopP, List.foldl_cons]
    set s := (recP (placeP b c Marker.AI) (max α0 valueP) β false).2 with hsdef
    obtain ⟨hA, hM, hB⟩ := hchild c (max α0 valueP) h3
    rw [← hsdef] at hA hM hB
    by_cases hup : valueP < s
    · simp only [if_pos hup]
      by_cases hpr : β ≤ max (max α0 valueP) s
      · simp only [if_pos hpr]
        have hsβ : β ≤ s := by
          rcases le_max_iff.mp hpr with h | h
          · exact absurd h (not_le.mpr h3)
          · exact h
        have hsF := hB hsβ
        refine ⟨fun hle => ?_, fun _ hlt => ?_, fun _ => ?_⟩
        · exact absurd (lt_of_lt_of_le hαβ hsβ) (not_lt.mpr hle)
        · exact absurd hlt (not_lt.mpr hsβ)
        · exact le_trans hsF (le_trans (le_max_right valueF (F c)) (le_foldl_max F rest _))
      · simp only [if_neg hpr]
        have hsβ' : s < β := lt_of_le_of_lt (le_max_right (max α0 valueP) s) (not_le.mp hpr)
        have heqα : max (max α0 valueP) s = max α0 s := by
          rw [max_assoc]
          congr 1
          exact max_eq_right (le_of_lt hup)
        rw [heqα]
        by_cases hsle : s ≤ max α0 valueP
        · have hsα0 : s ≤ α0 := by
            rcases le_max_iff.mp hsle with h | h
            · exact h
            · exact absurd hup (not_lt.mpr h)
          have hFs := hA hsle
          refine ih c s (max valueF (F c)) _ rfl ?_ ?_ ?_
          · exact max_le (le_trans h1 (le_of_lt hup)) hFs
          · exact le_trans hsα0 (le_max_left _ _)
          · rw [max_eq_left hsα0]
            exact hαβ
        · have hmid := hM (not_le.mp hsle) hsβ'
          have hFc : max valueF (F c) = s := by
            rw [← hmid]
            exact max_eq_right (le_trans h1 (le_of_lt hup))
          rw [hFc]
          have hα0s : α0 < s := lt_of_le_of_lt (le_max_left α0 valueP) (not_le.mp hsle)
          refine ih c s s _ rfl (le_refl _) (le_max_right _ _) ?_
          rw [max_eq_right (le_of_lt hα0s)]
          exact hsβ'
    · simp only [if_neg hup]
      have hsle : s ≤ max α0 valueP := le_trans (not_lt.mp hup) (le_max_right α0 valueP)
      have hFs := hA hsle
      have heqα : max (max α0 valueP) valueP = max α0 valueP := by
        rw [max_assoc, max_self]
      rw [heqα, if_neg (not_le.mpr h3)]
      refine ih col valueP (max valueF (F c)) _ rfl ?_ ?_ h3
      · exact max_le h1 (le_trans hFs (not_lt.mp hup))
      · exact le_trans h2 (max_le_max (le_refl α0) (le_max_left valueF (F c)))

/-- Knuth-Moore style bounds for the pruned minimizing loop against the
full fold, the mirror image of `maxLoop_bounds`. -/
theorem minLoop_bounds (recP : Board → EInt → EInt → Bool → Option Nat × EInt)
    (b : Board) (α β0 : EInt) (F : Nat → EInt) (hβα : α < β0)
    (hchild : ∀ (c : Nat) (β' : EInt), α < β' →
      ((recP (placeP b c (minOpponent b)) α β' true).2 ≤ α →
        F c ≤ (recP (placeP b c (minOpponent b)) α β' true).2) ∧
      (α < (recP (placeP b c (minOpponent b)) α β' true).2 →
        (recP (placeP b c (minOpponent b)) α β' true).2 < β' →
        (recP (placeP b c (minOpponent b)) α β' true).2 = F c) ∧
      (β' ≤ (recP (placeP b c (minOpponent b)) α β' true).2 →
        (recP (placeP b c (minOpponent b)) α β' true).2 ≤ F c)) :
    ∀ (ms : List Nat) (col : Nat) (valueP valueF β : EInt),
      β = min β0 valueP →
      valueP ≤ valueF → min β0 valueF ≤ valueP → α < min β0 valueP →
      ((minLoopP recP b α ms col valueP β).2 ≤ α →
        ms.foldl (fun v c => min v (F c)) valueF ≤ (minLoopP recP b α ms col valueP β).2) ∧
      (α < (minLoopP recP b α ms col valueP β).2 →
        (minLoopP recP b α ms col valueP β).2 < β0 →
        (minLoopP recP b α ms col valueP β).2 = ms.foldl (fun v c => min v (F c)) valueF) ∧
      (β0 ≤ (minLoopP recP b α ms col valueP β).2 →
        (minLoopP recP b α ms col valueP β).2 ≤ ms.foldl (fun v c => min v (F c)) valueF) := by
  intro ms
  induction ms with
  | nil =>
    intro col valueP valueF β hβ h1 h2 h3
    subst hβ
    simp only [minLoopP, List.foldl_nil]
    refine ⟨fun hle => ?_, fun _ hlt => ?_, fun _ => h1⟩
    · rcases min_le_iff.mp h2 with h | h
      · exact absurd (lt_of_lt_of_le hβα h) (not_lt.mpr hle)
      · exact h
    · rcases min_le_iff.mp h2 with h | h
      · exact absurd hlt (not_lt.mpr h)
      · exact le_antisymm h1 h
  | cons c rest ih =>
    intro col valueP valueF β hβ h1 h2 h3
    subst hβ
    simp only [minLoopP, List.foldl_cons]
    set s := (recP (placeP b c (minOpponent b)) α (min β0 valueP) true).2 with hsdef
    obtain ⟨hA, hM, hB⟩ := hchild c (min β0 valueP) h3
    rw [← hsdef] at hA hM hB
    by_cases hup : s < valueP
    · simp only [if_pos hup]
      by_cases hpr : min (min β0 valueP) s ≤ α
      · simp only [if_pos hpr]
        have hsα : s ≤ α := by
          rcases min_le_iff.mp hpr with h | h
          · exact absurd h (not_le.mpr h3)
          · exact h
        have hFs := hA hsα
        refine ⟨fun _ => ?_, fun hgt _ => ?_, fun hge => ?_⟩
        · exact le_trans (foldl_min_le F rest _) (le_trans (min_le_right valueF (F c)) hFs)
        · exact absurd hgt (not_lt.mpr hsα)
        · exact absurd (lt_of_lt_of_le hβα hge) (not_lt.mpr hsα)
      · simp only [if_neg hpr]
        have hsα' : α < s := lt_of_lt_of_le (not_le.mp hpr) (min_le_right (min β0 valueP) s)
        have heqβ : min (min β0 valueP) s = min β0 s := by
          rw [min_assoc]
          congr 1
          exact min_eq_right (le_of_lt hup)
        rw [heqβ]
        by_cases hsge : min β0 valueP ≤ s
        · have hsβ0 : β0 ≤ s := by
            rcases min_le_iff.mp hsge with h | h
            · exact h
            · exact absurd hup (not_lt.mpr h)
          have hsF := hB hsge
          refine ih c s (min valueF (F c)) _ rfl ?_ ?_ ?_
          · exact le_min (le_trans (le_of_lt hup) h1) hsF
          · exact le_trans (min_le_left _ _) hsβ0
          · rw [min_eq_left hsβ0]
            exact hβα
        · have hmid := hM hsα' (not_le.mp hsge)
          have hFc : min valueF (F c) = s := by
            rw [← hmid]
            exact min_eq_right (le_trans (le_of_lt hup) h1)
          rw [hFc]
          have hsβ0' : s < β0 := lt_of_lt_of_le (not_le.mp hsge) (min_le_left β0 valueP)
          refine ih c s s _ rfl (le_refl _) (min_le_right _ _) ?_
          rw [min_eq_right (le_of_lt hsβ0')]
          exact hsα'
    · simp only [if_neg hup]
      have hsge : min β0 valueP ≤ s := le_trans (min_le_right β0 valueP) (not_lt.mp hup)
      have hsF := hB hsge
      have heqβ : min (min β0 valueP) valueP = min β0 valueP := by
        rw [min_assoc, min_self]
      rw [heqβ, if_neg (not_le.mpr h3)]
      refine ih col valueP (min valueF (F c)) _ rfl ?_ ?_ h3
      · exact le_min h1 (le_trans (not_lt.mp hup) hsF)
      · exact le_trans (min_le_min (le_refl β0) (min_le_left valueF (F c))) h2

/-- Fail-soft alpha-beta bounds for the whole search: inside the window the
pruned score equals the full-width score; outside it bounds the full score
from the matching side. -/
theorem minimaxPure_bounds : ∀ (d : Nat) (b : Board) (α β : EInt) (m : Bool), α < β →
    ((minimaxPure d b α β m).2 ≤ α →
      (minimaxFull d b m).2 ≤ (minimaxPure d b α β m).2) ∧
    (α < (minimaxPure d b α β m).2 → (minimaxPure d b α β m).2 < β →
      (minimaxPure d b α β m).2 = (minimaxFull d b m).2) ∧
    (β ≤ (minimaxPure d b α β m).2 →
      (minimaxPure d b α β m).2 ≤ (minimaxFull d b m).2) := by
  intro d
  induction d with
  | zero =>
    intro b α β m _
    have he : (minimaxPure 0 b α β m).2 = (minimaxFull 0 b m).2 := rfl
    exact ⟨fun _ => le_of_eq he.symm, fun _ _ => he, fun _ => le_of_eq he⟩
  | succ d ih =>
    intro b α β m hαβ
    by_cases hterm : isTerminal b = true
    · have he : (minimaxPure (d+1) b α β m).2 = (minimaxFull (d+1) b m).2 := by
        simp [minimaxPure, minimaxFull, hterm]
      exact ⟨fun _ => le_of_eq he.symm, fun _ _ => he, fun _ => le_of_eq he⟩
    · have hterm' : isTerminal b = false := by
        cases h : isTerminal b
        · rfl
        · exact absurd h hterm
      cases hms : sortMoves (get_valid_moves b) with
      | nil =>
        have he : (minimaxPure (d+1) b α β m).2 = (minimaxFull (d+1) b m).2 := by
          simp [minimaxPure, minimaxFull, hterm', hms]
        exact ⟨fun _ => le_of_eq he.symm, fun _ _ => he, fun _ => le_of_eq he⟩
      | cons c0 tl =>
        cases m with
        | true =>
          have hp : (minimaxPure (d+1) b α β true).2 =
              (maxLoopP (fun b' α' β' m' => minimaxPure d b' α' β' m') b β
                (c0 :: tl) c0 ⊥ α).2 := by
            simp only [minimaxPure, hterm', Bool.false_eq_true, if_false, hms, if_true]
          have hf : (minimaxFull (d+1) b true).2 =
              (c0 :: tl).foldl
                (fun v c => max v ((minimaxFull d (placeP b c Marker.AI) false).2)) ⊥ := by
            simp only [minimaxFull, hterm', Bool.false_eq_true, if_false, hms, if_true]
            exact maxFoldF_snd _ b (c0 :: tl) c0 ⊥
          rw [hp, hf]
          exact maxLoop_bounds (fun b' α' β' m' => minimaxPure d b' α' β' m') b α β
            (fun c => (minimaxFull d (placeP b c Marker.AI) false).2) hαβ
            (fun c α' hα' => ih (placeP b c Marker.AI) α' β false hα')
            (c0 :: tl) c0 ⊥ ⊥ α (max_eq_left bot_le).symm (le_refl ⊥) bot_le
            (by rw [max_eq_left bot_le]; exact hαβ)
        | false =>
          have hp : (minimaxPure (d+1) b α β false).2 =
              (minLoopP (fun b' α' β' m' => minimaxPure d b' α' β' m') b α
                (c0 :: tl) c0 ⊤ β).2 := by
            simp only [minimaxPure, hterm', Bool.false_eq_true, if_false, hms]
          have hf : (minimaxFull (d+1) b false).2 =
              (c0 :: tl).foldl
                (fun v c => min v ((minimaxFull d (placeP b c (minOpponent b)) true).2)) ⊤ := by
            simp only [minimaxFull, hterm', Bool.false_eq_true, if_false, hms]
            exact minFoldF_snd _ b (c0 :: tl) c0 ⊤
          rw [hp, hf]
          exact minLoop_bounds (fun b' α' β' m' => minimaxPure d b' α' β' m') b α β
            (fun c => (minimaxFull d (placeP b c (minOpponent b)) true).2) hαβ
            (fun c β' hβ' => ih (placeP b c (minOpponent b)) α β' true hβ')
            (c0 :: tl) c0 ⊤ ⊤ β (min_eq_left le_top).symm (le_refl ⊤) le_top
            (by rw [min_eq_left le_top]; exact hαβ)

/-- With the full window (beta = top) the pruned maximizing loop performs
no cutoff and tracks the full fold exactly, column included. -/
theorem maxLoop_top_eq (recP : Board → EInt → EInt → Bool → Option Nat × EInt)
    (recF : Board → Bool → Option Nat × EInt) (b : Board)
    (hfin : ∀ (c : Nat) (α' : EInt), (recP (placeP b c Marker.AI) α' ⊤ false).2 ≠ ⊤)
    (hcb : ∀ (c : Nat) (α' : EInt), α' ≠ ⊤ →
      ((recP (placeP b c Marker.AI) α' ⊤ false).2 ≤ α' →
        (recF (placeP b c Marker.AI) false).2 ≤
          (recP (placeP b c Marker.AI) α' ⊤ false).2) ∧
      (α' < (recP (placeP b c Marker.AI) α' ⊤ false).2 →
        (recP (placeP b c Marker.AI) α' ⊤ false).2 =
          (recF (placeP b c Marker.AI) false).2)) :
    ∀ (ms : List Nat) (col : Nat) (value : EInt), value ≠ ⊤ →
      maxLoopP recP b ⊤ ms col value value = maxFoldF recF b ms col value := by
  intro ms
  induction ms with
  | nil => intro col value _; rfl
  | cons c rest ih =>
    intro col value hv
    simp only [maxLoopP, maxFoldF]
    set s := (recP (placeP b c Marker.AI) value ⊤ false).2 with hsdef
    set t := (recF (placeP b c Marker.AI) false).2 with htdef
    obtain ⟨hA, hM⟩ := hcb c value hv
    rw [← hsdef, ← htdef] at hA hM
    have hsfin : s ≠ ⊤ := hfin c value
    by_cases hup : value < s
    · have hst : s = t := hM hup
      simp only [if_pos hup]
      have hmax : max value s = s := max_eq_right (le_of_lt hup)
      have hnopr : ¬ (⊤ : EInt) ≤ max value s := by
        rw [hmax]
        exact fun hle => hsfin (top_le_iff.mp hle)
      simp only [if_neg hnopr]
      have hupt : value < t := hst ▸ hup
      rw [if_pos hupt, hmax, ← hst, hmax]
      exact ih c s hsfin
    · simp only [if_neg hup]
      have hts : t ≤ value := le_trans (hA (not_lt.mp hup)) (not_lt.mp hup)
      have hnupt : ¬ value < t := not_lt.mpr hts
      rw [if_neg hnupt]
      have hnopr : ¬ (⊤ : EInt) ≤ max value value := by
        rw [max_self]
        exact fun hle => hv (top_le_iff.mp hle)
      simp only [if_neg hnopr]
      rw [max_self, max_eq_left hts]
      exact ih col value hv

/-- With the full window the pruned search and the full-width search agree
on both the chosen column and the score. -/
theorem minimaxPure_eq_full : ∀ (d : Nat) (b : Board),
    minimaxPure d b ⊥ ⊤ true = minimaxFull d b true := by
  intro d b
  cases d with
  | zero => rfl
  | succ d =>
    by_cases hterm : isTerminal b = true
    · simp [minimaxPure, minimaxFull, hterm]
    · have hterm' : isTerminal b = false := by
        cases h : isTerminal b
        · rfl
        · exact absurd h hterm
      cases hms : sortMoves (get_valid_moves b) with
      | nil => simp [minimaxPure, minimaxFull, hterm', hms]
      | cons c0 tl =>
        simp only [minimaxPure, minimaxFull, hterm', Bool.false_eq_true, if_false, hms,
          if_true]
        have hloop := maxLoop_top_eq (fun b' α' β' m' => minimaxPure d b' α' β' m')
          (fun b' m' => minimaxFull d b' m') b
          (fun c α' => (minimaxPure_fin d (placeP b c Marker.AI) α' ⊤ false).2)
          (fun c α' hα' => by
            have hb := minimaxPure_bounds d (placeP b c Marker.AI) α' ⊤ false
              (lt_top_iff_ne_top.mpr hα')
            refine ⟨hb.1, fun hlt => ?_⟩
            exact hb.2.1 hlt
              (lt_top_iff_ne_top.mpr (minimaxPure_fin d (placeP b c Marker.AI) α' ⊤ false).2))
          (c0 :: tl) c0 ⊥ bot_ne_top
        rw [hloop]

/-- C2: for every board state and depth, the column and score returned by
the alpha-beta pruned search invoked top-level with alpha = bottom,
beta = top and maximizing = true equal the column and score of the
exhaustive full-width search of the same depth with pruning disabled,
given the first-found tie-break over the center-first move ordering. -/
theorem claim2_alphabeta_equiv (d : Nat) (b : Board) :
    (minimax d b ⊥ ⊤ true).1 = minimaxFull d b true := by
  rw [minimax_spec]
  exact minimaxPure_eq_full d b
